import Mathlib

/-!
Verification development for the indra_cogex graph-ETL pipeline.

The definitions below are a shallow embedding of the write-path pipeline in
`src/indra_cogex/sources/processor.py` (validation, sorting, bulk dump of
node/edge tables, sample files and the edge summary), of the query-layer
functions in `src/indra_cogex/client/queries.py` (`get_go_terms_for_gene`,
`get_genes_for_go_term`, `get_ontology_child_terms`) and of
`_prepare_hypergeometric_test` in `src/indra_cogex/client/gene_list.py`.

Python dictionaries are embedded as insertion-ordered association lists,
`csv` rows as `List String`, gzip/tsv files as lists of rows, and the
lazy generators of the source as plain lists consumed in order.
-/

/-- A node of the property graph.  The class lives in
`indra_cogex.representation`, which is not among the provided source files;
the fields are the ones accessed by `processor.py` (`db_ns`, `db_id`,
`labels`, `data`) and match the spec's data model, section 3:
namespace, local id, ordered label list, and a property mapping
(embedded as an association list with string values). -/
structure Node where
  db_ns : String
  db_id : String
  labels : List String
  data : List (String × String)
deriving DecidableEq

/-- A directed typed edge of the property graph.  As with `Node`, the class
is from `indra_cogex.representation`; the fields are the ones accessed by
`processor.py`: endpoint namespaces/ids, the relation type, and a property
mapping. -/
structure Relation where
  source_ns : String
  source_id : String
  target_ns : String
  target_id : String
  rel_type : String
  data : List (String × String)
deriving DecidableEq

/-- Modelled from the spec: `norm_id` lives in `indra_cogex.representation`,
which is not under the provided sources.  Per spec sections 4.1 and 6, it
canonicalizes a `(namespace, local_id)` pair into the normalized
`namespace:local_id` string key, with the namespace case-normalized
(lower-cased character by character); namespace-specific local-id
rewriting is abstracted away as the identity. -/
def norm_id (ns id : String) : String :=
  String.mk (ns.data.map Char.toLower) ++ ":" ++ id

/-- Modelled from the spec: `Node.grounding` is defined in
`indra_cogex.representation` (not under the provided sources).  Per the
spec's identity invariant (section 3) it is the node identity key, the
`(namespace, local_id)` pair. -/
def Node.grounding (n : Node) : String × String :=
  (n.db_ns, n.db_id)

/-- Lookup in a property mapping with a default, embedding Python's
`dict.get(key, default)`. -/
def dataGetD (d : List (String × String)) (k : String) (dflt : String) : String :=
  match d.find? (fun p => p.1 == k) with
  | some p => p.2
  | none => dflt

/-- Strict lexicographic comparison of two character sequences by code
point, which is how Python compares two strings with `<`. -/
def charListLt : List Char → List Char → Bool
  | _, [] => false
  | [], _ :: _ => true
  | a :: as, b :: bs => decide (a < b) || (decide (a = b) && charListLt as bs)

/-- Python's strict string comparison `a < b` (lexicographic by code
point). -/
def strLtB (a b : String) : Bool :=
  charListLt a.data b.data

/-- Python's string comparison `a <= b`. -/
def strLeB (a b : String) : Bool :=
  !(strLtB b a)

/-- Python's comparison of two equal-length tuples of strings with `<=`:
lexicographic, deciding at the first component where the tuples differ.
The tuples are embedded as lists of strings. -/
def strListLe : List String → List String → Bool
  | [], _ => true
  | _ :: _, [] => false
  | a :: as, b :: bs =>
    if strLtB a b then true else if strLtB b a then false else strListLe as bs

/-- The sort key of `Processor._dump_nodes`: the tuple
`(node.db_ns, node.db_id)` of `lambda x: (x.db_ns, x.db_id)`. -/
def nodeKeyL (n : Node) : List String :=
  [n.db_ns, n.db_id]

/-- The sort key of `Processor._dump_edges`: the tuple
`(r.source_ns, r.source_id, r.target_ns, r.target_id)`. -/
def relKeyL (r : Relation) : List String :=
  [r.source_ns, r.source_id, r.target_ns, r.target_id]

/-- The node comparator of `Processor._dump_nodes`: keys compared as
Python compares string tuples. -/
def nodeLe (a b : Node) : Bool :=
  strListLe (nodeKeyL a) (nodeKeyL b)

/-- The relation comparator of `Processor._dump_edges`. -/
def relLe (a b : Relation) : Bool :=
  strListLe (relKeyL a) (relKeyL b)

/-- Stable insertion of an element into a sorted list: `x` is placed
before the first element `y` with `le x y`, hence after every earlier
element of equal rank. -/
def insertSorted (le : α → α → Bool) (x : α) : List α → List α
  | [] => [x]
  | y :: t => if le x y then x :: y :: t else y :: insertSorted le x t

/-- Stable sort by a boolean comparator.  Python's `sorted` is specified
as a stable sort, and every stable sort of the same sequence by the same
total preorder yields the same output, so this insertion sort embeds
`sorted(..., key=...)` exactly. -/
def sortBy (le : α → α → Bool) : List α → List α
  | [] => []
  | x :: t => insertSorted le x (sortBy le t)

/-- The identifier check applied to one node by `validate_nodes`:
`assert_valid_db_refs({node.db_ns: node.db_id})` succeeds.  The check itself
comes from the external `indra` package, so it is abstracted as a boolean
predicate `valid` on `(namespace, local_id)` pairs. -/
def nodeValidB (valid : String → String → Bool) (n : Node) : Bool :=
  valid n.db_ns n.db_id

/-- The identifier check applied to one relation by `validate_relations`:
both the source and the target reference must pass
`assert_valid_db_refs`. -/
def relValidB (valid : String → String → Bool) (r : Relation) : Bool :=
  valid r.source_ns r.source_id && valid r.target_ns r.target_id

/-- Shared shape of the `validate_nodes` and `validate_relations`
generators of `processor.py`: walk the stream with its `enumerate` index,
yield each item passing the check, and record a rejection `(index, item)`
for each failing item (the Python code logs the index, the item and the
exception, and continues with the next item). -/
def filterLogAux (p : α → Bool) : Nat → List α → List α × List (Nat × α)
  | _, [] => ([], [])
  | idx, x :: rest =>
    let acc := filterLogAux p (idx + 1) rest
    if p x then (x :: acc.1, acc.2) else (acc.1, (idx, x) :: acc.2)

/-- The nodes yielded by the `validate_nodes` generator (in stream
order). -/
def validate_nodes (valid : String → String → Bool) (nodes : List Node) : List Node :=
  (filterLogAux (nodeValidB valid) 0 nodes).1

/-- The rejection records `(index, item)` logged by `validate_nodes`. -/
def validate_nodes_rejects (valid : String → String → Bool) (nodes : List Node) :
    List (Nat × Node) :=
  (filterLogAux (nodeValidB valid) 0 nodes).2

/-- The relations yielded by the `validate_relations` generator (in stream
order); a relation passes when both its endpoint references pass the
check. -/
def validate_relations (valid : String → String → Bool) (rels : List Relation) :
    List Relation :=
  (filterLogAux (relValidB valid) 0 rels).1

/-- The rejection records `(index, item)` logged by `validate_relations`. -/
def validate_relations_rejects (valid : String → String → Bool) (rels : List Relation) :
    List (Nat × Relation) :=
  (filterLogAux (relValidB valid) 0 rels).2

/-- The `sorted(self.get_nodes(), key=lambda x: (x.db_ns, x.db_id))` call of
`Processor._dump_nodes`; Python's `sorted` is a stable sort, embedded by
the stable `sortBy`. -/
def sortNodes (nodes : List Node) : List Node :=
  sortBy nodeLe nodes

/-- The `sorted(rels, key=lambda r: (r.source_ns, r.source_id, r.target_ns,
r.target_id))` call of `Processor._dump_edges`. -/
def sortRels (rels : List Relation) : List Relation :=
  sortBy relLe rels

/-- The `sorted(set(key for node in nodes for key in node.data))` expression
of `Processor._dump_nodes_to_path`: the sorted, duplicate-free list of all
property keys appearing across the batch. -/
def nodeMetadata (nodes : List Node) : List String :=
  sortBy strLeB ((nodes.flatMap fun n => n.data.map Prod.fst).dedup)

/-- The `sorted(set(key for rel in rels for key in rel.data))` expression of
`Processor._dump_edges`. -/
def relMetadata (rels : List Relation) : List String :=
  sortBy strLeB ((rels.flatMap fun r => r.data.map Prod.fst).dedup)

/-- One data row of the node table, from `Processor._dump_nodes_to_path`:
the normalized id, the semicolon-joined label list, then
`node.data.get(key, "")` for each metadata key. -/
def nodeRow (metadata : List String) (n : Node) : List String :=
  norm_id n.db_ns n.db_id
    :: String.intercalate ";" n.labels
    :: metadata.map (fun k => dataGetD n.data k "")

/-- The node-table header `("id:ID", ":LABEL", *metadata)`. -/
def nodeHeader (metadata : List String) : List String :=
  "id:ID" :: ":LABEL" :: metadata

/-- One data row of the edge table, from `Processor._dump_edges`: the
normalized source and target ids, the relation type, then
`rel.data.get(key)` for each metadata key (`csv` renders a missing value,
Python's `None`, as the empty field). -/
def edgeRow (metadata : List String) (r : Relation) : List String :=
  norm_id r.source_ns r.source_id
    :: norm_id r.target_ns r.target_id
    :: r.rel_type
    :: metadata.map (fun k => dataGetD r.data k "")

/-- The edge-table header `(":START_ID", ":END_ID", ":TYPE", *metadata)`. -/
def edgeHeader (metadata : List String) : List String :=
  ":START_ID" :: ":END_ID" :: ":TYPE" :: metadata

/-- Embedding of `Processor._dump_nodes_to_path`.  The input list plays the
role of the `nodes` iterable; the function first applies `validate_nodes`,
computes the metadata key set, and then writes the header followed by every
row to the main table.  When a sample path is given (`withSample = true`)
the first ten rows are written through the sample loop (to both files) and
the remaining rows through `writerows`; otherwise all rows go through
`writerows` directly and no sample file is produced.  Returns the main
table and the optional sample table, each as a list of rows including the
header. -/
def dump_nodes_to_path (valid : String → String → Bool) (withSample : Bool)
    (nodes : List Node) : List (List String) × Option (List (List String)) :=
  let vnodes := validate_nodes valid nodes
  let metadata := nodeMetadata vnodes
  let rows := vnodes.map (nodeRow metadata)
  let header := nodeHeader metadata
  if withSample then
    (header :: (rows.take 10 ++ rows.drop 10), some (header :: rows.take 10))
  else
    (header :: rows, none)

/-- Embedding of `Processor._dump_nodes`: sort the raw node stream by
`(db_ns, db_id)` and hand it to `_dump_nodes_to_path` with a sample path.
Returns the written tables together with the sorted (pre-validation) node
list that the Python method pickles and returns. -/
def dump_nodes (valid : String → String → Bool) (nodes : List Node) :
    (List (List String) × Option (List (List String))) × List Node :=
  let sortedNodes := sortNodes nodes
  (dump_nodes_to_path valid true sortedNodes, sortedNodes)

/-- One increment of a Python `collections.Counter` embedded as an
insertion-ordered association list: bump the count in place when the key is
present, append a fresh entry otherwise. -/
def counterAdd (c : List (String × Nat)) (k : String) : List (String × Nat) :=
  if c.any (fun p => p.1 == k) then
    c.map (fun p => if p.1 == k then (p.1, p.2 + 1) else p)
  else
    c ++ [(k, 1)]

/-- The counter accumulated over a list of keys, in order. -/
def counterOf (ks : List String) : List (String × Nat) :=
  ks.foldl counterAdd []

/-- Embedding of `Counter.most_common()`: the entries stably sorted by
descending count (CPython sorts the items with `reverse=True`, which keeps
insertion order among equal counts). -/
def most_common (c : List (String × Nat)) : List (String × Nat) :=
  sortBy (fun a b => decide (b.2 ≤ a.2)) c

/-- One data row of the summary file, from
`print(*row, count, sep="\t", file=file)` in `Processor._dump_edges`:
`row` is a counter key, which the star operator unpacks into its elements
before printing; since the counter is keyed by `edge_row[2]` (a string),
the unpacking yields the individual characters of that string, each of
which becomes its own tab-separated field, followed by the count. -/
def summaryRow (kc : String × Nat) : List String :=
  kc.1.data.map String.singleton ++ [toString kc.2]

/-- Embedding of `Processor._dump_edges`: validate the relation stream,
sort it by the endpoint tuple, compute the metadata key set, and write the
header plus every row to the edge table (the first ten rows through the
sample loop, which also writes them to the sample file, the rest through
the remaining-edges loop), counting `edge_row[2]` for each written row in
a `Counter`; finally write the summary file from `counter.most_common()`.
Returns `(edge table, sample table, summary table)`, each as a list of
rows including the header. -/
def dump_edges (valid : String → String → Bool) (input : List Relation) :
    List (List String) × List (List String) × List (List String) :=
  let rels := sortRels (validate_relations valid input)
  let metadata := relMetadata rels
  let rows := rels.map (edgeRow metadata)
  let header := edgeHeader metadata
  let table := header :: (rows.take 10 ++ rows.drop 10)
  let sample := header :: rows.take 10
  let counter := counterOf (rows.map (fun r => r.getD 2 ""))
  let summary :=
    ["source_ns", "rel", "target_ns", "count"] :: (most_common counter).map summaryRow
  (table, sample, summary)

/-- The five artifacts produced by one run of `Processor.dump`. -/
structure DumpResult where
  node_table : List (List String)
  node_sample : List (List String)
  edge_table : List (List String)
  edge_sample : List (List String)
  edge_summary : List (List String)
deriving DecidableEq

/-- Embedding of `Processor.dump`: `_dump_nodes` followed by
`_dump_edges`, over the streams produced by the source adapter
(`get_nodes()` and `get_relations()`, here passed as lists). -/
def Processor.dump (valid : String → String → Bool) (nodes : List Node)
    (rels : List Relation) : DumpResult :=
  let np := dump_nodes valid nodes
  let ep := dump_edges valid rels
  { node_table := np.1.1
    node_sample := (np.1.2).getD []
    edge_table := ep.1
    edge_sample := ep.2.1
    edge_summary := ep.2.2 }

/-- Modelled from the spec: the Neo4j graph client
(`indra_cogex.client.neo4j_client.Neo4jClient`) is not under the provided
sources.  Per spec sections 4.6 and 6 the query layer is a set of read-only,
side-effect-free primitives taking `(namespace, local_id)` pairs and
relation-type strings and returning node collections: one-hop targets and
sources for a relation type, and successors/predecessors for a collection
of hierarchical relation types.  It is embedded as a record of pure
functions. -/
structure Client where
  get_targets : String × String → String → List Node
  get_sources : String × String → String → List Node
  get_successors : String × String → List String → List Node
  get_predecessors : String × String → List String → List Node

/-- One Python dictionary assignment `m[key x] = x` on an insertion-ordered
association list: when the key is present its value is replaced in place
(CPython dictionaries keep the original insertion position); otherwise a
fresh entry is appended. -/
def dictInsert {κ α : Type} [DecidableEq κ] (key : α → κ)
    (m : List (κ × α)) (x : α) : List (κ × α) :=
  if m.any (fun p => decide (p.1 = key x)) then
    m.map (fun p => if p.1 = key x then (p.1, x) else p)
  else
    m ++ [(key x, x)]

/-- A Python dictionary built by assigning `m[key x] = x` for each element
of a list in order (as a dict comprehension or an accumulating loop does). -/
def buildDict {κ α : Type} [DecidableEq κ] (key : α → κ) (l : List α) :
    List (κ × α) :=
  l.foldl (dictInsert key) []

/-- Embedding of `get_ontology_child_terms` from `client/queries.py`:
`client.get_predecessors(term, relations={"isa", "partof"})`. -/
def get_ontology_child_terms (client : Client) (term : String × String) : List Node :=
  client.get_predecessors term ["isa", "partof"]

/-- Embedding of `get_go_terms_for_gene` from `client/queries.py`.  The
direct GO terms are `client.get_targets(gene, "associated_with")`; when
`include_indirect` is false they are returned as-is.  Otherwise a
dictionary keyed by `grounding()` is built from the direct terms and then,
for each direct term, every `isa`-successor is assigned into the same
dictionary, after which the dictionary's values are returned. -/
def get_go_terms_for_gene (client : Client) (gene : String × String)
    (include_indirect : Bool) : List Node :=
  let go_term_nodes := client.get_targets gene "associated_with"
  if !include_indirect then go_term_nodes
  else
    let init := go_term_nodes.foldl (dictInsert Node.grounding) []
    let m := go_term_nodes.foldl
      (fun m g =>
        (client.get_successors g.grounding ["isa"]).foldl (dictInsert Node.grounding) m)
      init
    m.map Prod.snd

/-- Embedding of `get_genes_for_go_term` from `client/queries.py`: the loop
runs over `[go_term] + go_children` (the children only when
`include_indirect` is true), fetches
`client.get_sources(term, "associated_with")` for each term, and assigns
every gene into a dictionary keyed by `grounding()`; the dictionary's
values are returned.  Child terms are `Node`s and are looked up by their
identity pair. -/
def get_genes_for_go_term (client : Client) (go_term : String × String)
    (include_indirect : Bool) : List Node :=
  let go_children := if include_indirect then get_ontology_child_terms client go_term else []
  let terms : List (String × String) := go_term :: go_children.map Node.grounding
  (terms.foldl
      (fun m t => (client.get_sources t "associated_with").foldl (dictInsert Node.grounding) m)
      []).map Prod.snd

/-- Embedding of `_prepare_hypergeometric_test` from `client/gene_list.py`:
the 2x2 contingency matrix
`[[|Q ∩ P|, |Q \ P|], [|P \ Q|, U - |Q ∪ P|]]` for a query gene set `Q`, a
pathway gene set `P` and a universe size `U` (an integer, so the last cell
may be negative). -/
def prepare_hypergeometric_test (query_gene_set pathway_gene_set : Finset String)
    (gene_universe : Int) : (Int × Int) × (Int × Int) :=
  (((query_gene_set ∩ pathway_gene_set).card,
    (query_gene_set \ pathway_gene_set).card),
   ((pathway_gene_set \ query_gene_set).card,
    gene_universe - (pathway_gene_set ∪ query_gene_set).card))

/-! Order-theoretic facts about the comparators. -/

theorem charListLt_asymm :
    ∀ as bs : List Char, charListLt as bs = true → charListLt bs as = false := by
  intro as
  induction as with
  | nil =>
    intro bs h
    cases bs with
    | nil => simp [charListLt] at h
    | cons b bs => simp [charListLt]
  | cons a as ih =>
    intro bs h
    cases bs with
    | nil => simp [charListLt] at h
    | cons b bs =>
      simp only [charListLt, Bool.or_eq_true, Bool.and_eq_true, decide_eq_true_eq] at h
      simp only [charListLt, Bool.or_eq_false_iff, Bool.and_eq_false_iff,
        decide_eq_false_iff_not]
      rcases h with hlt | ⟨heq, hrec⟩
      · exact ⟨fun h2 => absurd hlt (lt_asymm h2),
          Or.inl (fun h2 => absurd hlt (by simp [h2, lt_irrefl]))⟩
      · subst heq
        exact ⟨fun h2 => absurd h2 (lt_irrefl a), Or.inr (ih bs hrec)⟩

theorem charListLt_trans :
    ∀ as bs cs : List Char, charListLt as bs = true → charListLt bs cs = true →
      charListLt as cs = true := by
  intro as
  induction as with
  | nil =>
    intro bs cs h1 h2
    cases bs with
    | nil => simp [charListLt] at h1
    | cons b bs =>
      cases cs with
      | nil => simp [charListLt] at h2
      | cons c cs => simp [charListLt]
  | cons a as ih =>
    intro bs cs h1 h2
    cases bs with
    | nil => simp [charListLt] at h1
    | cons b bs =>
      cases cs with
      | nil => simp [charListLt] at h2
      | cons c cs =>
        simp only [charListLt, Bool.or_eq_true, Bool.and_eq_true, decide_eq_true_eq] at h1 h2 ⊢
        rcases h1 with hab | ⟨hab, hrec1⟩
        · rcases h2 with hbc | ⟨hbc, _⟩
          · exact Or.inl (lt_trans hab hbc)
          · exact Or.inl (hbc ▸ hab)
        · subst hab
          rcases h2 with hbc | ⟨hbc, hrec2⟩
          · exact Or.inl hbc
          · exact Or.inr ⟨hbc, ih bs cs hrec1 hrec2⟩

theorem charListLt_eq_of_not :
    ∀ as bs : List Char, charListLt as bs = false → charListLt bs as = false → as = bs := by
  intro as
  induction as with
  | nil =>
    intro bs h1 _
    cases bs with
    | nil => rfl
    | cons b bs => simp [charListLt] at h1
  | cons a as ih =>
    intro bs h1 h2
    cases bs with
    | nil => simp [charListLt] at h2
    | cons b bs =>
      simp only [charListLt, Bool.or_eq_false_iff, Bool.and_eq_false_iff,
        decide_eq_false_iff_not] at h1 h2
      have hab : a = b := le_antisymm (not_lt.mp h2.1) (not_lt.mp h1.1)
      subst hab
      rcases h1.2 with h | h
      · exact absurd rfl h
      · rcases h2.2 with h2' | h2'
        · exact absurd rfl h2'
        · exact congrArg (a :: ·) (ih bs h h2')

theorem strLtB_asymm {a b : String} (h : strLtB a b = true) : strLtB b a = false :=
  charListLt_asymm _ _ h

theorem strLtB_trans {a b c : String} (h1 : strLtB a b = true) (h2 : strLtB b c = true) :
    strLtB a c = true :=
  charListLt_trans _ _ _ h1 h2

theorem strLtB_eq_of_not {a b : String} (h1 : strLtB a b = false) (h2 : strLtB b a = false) :
    a = b :=
  String.ext (charListLt_eq_of_not _ _ h1 h2)

theorem strLeB_total (a b : String) : strLeB a b = true ∨ strLeB b a = true := by
  unfold strLeB
  cases h1 : strLtB b a
  · exact Or.inl rfl
  · exact Or.inr (by simp [strLtB_asymm h1])

theorem strLeB_trans {a b c : String} (h1 : strLeB a b = true) (h2 : strLeB b c = true) :
    strLeB a c = true := by
  unfold strLeB at h1 h2 ⊢
  simp only [Bool.not_eq_true'] at h1 h2 ⊢
  cases hca : strLtB c a
  · rfl
  · exfalso
    cases hbc : strLtB b c
    · have hbc' : b = c := strLtB_eq_of_not hbc h2
      subst hbc'
      exact absurd hca (by simp [h1])
    · exact absurd (strLtB_trans hbc hca) (by simp [h1])

theorem strListLe_cons_iff (a b : String) (as bs : List String) :
    strListLe (a :: as) (b :: bs) = true ↔
      strLtB a b = true ∨
        (strLtB a b = false ∧ strLtB b a = false ∧ strListLe as bs = true) := by
  simp only [strListLe]
  cases hab : strLtB a b
  · cases hba : strLtB b a
    · simp
    · simp
  · simp

theorem strListLe_total :
    ∀ xs ys : List String, strListLe xs ys = true ∨ strListLe ys xs = true := by
  intro xs
  induction xs with
  | nil => intro ys; exact Or.inl rfl
  | cons a as ih =>
    intro ys
    cases ys with
    | nil => exact Or.inr rfl
    | cons b bs =>
      rw [strListLe_cons_iff, strListLe_cons_iff]
      cases hab : strLtB a b
      · cases hba : strLtB b a
        · rcases ih bs with h | h
          · exact Or.inl (Or.inr ⟨rfl, rfl, h⟩)
          · exact Or.inr (Or.inr ⟨rfl, rfl, h⟩)
        · exact Or.inr (Or.inl rfl)
      · exact Or.inl (Or.inl rfl)

theorem strListLe_trans :
    ∀ xs ys zs : List String, strListLe xs ys = true → strListLe ys zs = true →
      strListLe xs zs = true := by
  intro xs
  induction xs with
  | nil => intro ys zs _ _; rfl
  | cons a as ih =>
    intro ys zs h1 h2
    cases ys with
    | nil => simp [strListLe] at h1
    | cons b bs =>
      cases zs with
      | nil => simp [strListLe] at h2
      | cons c cs =>
        rw [strListLe_cons_iff] at h1 h2 ⊢
        rcases h1 with hab | ⟨hab, hba, hrec1⟩
        · rcases h2 with hbc | ⟨hbc, hcb, _⟩
          · exact Or.inl (strLtB_trans hab hbc)
          · have h := strLtB_eq_of_not hbc hcb
            subst h
            exact Or.inl hab
        · have h := strLtB_eq_of_not hab hba
          subst h
          rcases h2 with hac | ⟨hac, hca, hrec2⟩
          · exact Or.inl hac
          · exact Or.inr ⟨hac, hca, ih bs cs hrec1 hrec2⟩

theorem strListLe_antisymm :
    ∀ xs ys : List String, strListLe xs ys = true → strListLe ys xs = true → xs = ys := by
  intro xs
  induction xs with
  | nil =>
    intro ys _ h2
    cases ys with
    | nil => rfl
    | cons b bs => simp [strListLe] at h2
  | cons a as ih =>
    intro ys h1 h2
    cases ys with
    | nil => simp [strListLe] at h1
    | cons b bs =>
      rw [strListLe_cons_iff] at h1 h2
      rcases h1 with hab | ⟨hab, hba, hrec1⟩
      · rcases h2 with hba | ⟨hba, hab', _⟩
        · exact absurd (strLtB_asymm hab) (by simp [hba])
        · exact absurd hab (by simp [hab'])
      · have h := strLtB_eq_of_not hab hba
        subst h
        rcases h2 with hba' | ⟨_, _, hrec2⟩
        · exact absurd hba' (by simp [hba])
        · exact congrArg (a :: ·) (ih bs hrec1 hrec2)

theorem nodeLe_trans {a b c : Node} (h1 : nodeLe a b = true) (h2 : nodeLe b c = true) :
    nodeLe a c = true :=
  strListLe_trans _ _ _ h1 h2

theorem nodeLe_total (a b : Node) : nodeLe a b = true ∨ nodeLe b a = true :=
  strListLe_total _ _

theorem relLe_trans {a b c : Relation} (h1 : relLe a b = true) (h2 : relLe b c = true) :
    relLe a c = true :=
  strListLe_trans _ _ _ h1 h2

theorem relLe_total (a b : Relation) : relLe a b = true ∨ relLe b a = true :=
  strListLe_total _ _

/-! Facts about the stable insertion sort. -/

theorem perm_insertSorted (le : α → α → Bool) (x : α) :
    ∀ l : List α, (insertSorted le x l).Perm (x :: l) := by
  intro l
  induction l with
  | nil => exact List.Perm.refl _
  | cons y t ih =>
    simp only [insertSorted]
    cases h : le x y
    · rw [if_neg (by decide : ¬ (false = true))]
      exact (ih.cons y).trans (List.Perm.swap x y t)
    · rw [if_pos (by decide : (true = true))]

theorem perm_sortBy (le : α → α → Bool) :
    ∀ l : List α, (sortBy le l).Perm l := by
  intro l
  induction l with
  | nil => exact List.Perm.refl _
  | cons x t ih =>
    exact (perm_insertSorted le x (sortBy le t)).trans (ih.cons x)

theorem mem_insertSorted {le : α → α → Bool} {x z : α} {l : List α} :
    z ∈ insertSorted le x l ↔ z = x ∨ z ∈ l := by
  rw [(perm_insertSorted le x l).mem_iff]
  simp

theorem pairwise_insertSorted {le : α → α → Bool}
    (htrans : ∀ a b c, le a b = true → le b c = true → le a c = true)
    (htotal : ∀ a b, le a b = true ∨ le b a = true)
    (x : α) :
    ∀ l : List α, l.Pairwise (fun a b => le a b = true) →
      (insertSorted le x l).Pairwise (fun a b => le a b = true) := by
  intro l
  induction l with
  | nil => intro _; simp [insertSorted]
  | cons y t ih =>
    intro hp
    rcases List.pairwise_cons.mp hp with ⟨hy, ht⟩
    simp only [insertSorted]
    cases h : le x y
    · rw [if_neg (by decide : ¬ (false = true))]
      refine List.pairwise_cons.mpr ⟨?_, ih ht⟩
      intro z hz
      rcases mem_insertSorted.mp hz with hzx | hz
      · rw [hzx]
        rcases htotal x y with h' | h'
        · exact absurd h' (by simp [h])
        · exact h'
      · exact hy z hz
    · rw [if_pos (by decide : (true = true))]
      refine List.pairwise_cons.mpr ⟨?_, hp⟩
      intro z hz
      rcases List.mem_cons.mp hz with rfl | hz
      · exact h
      · exact htrans x y z h (hy z hz)

theorem pairwise_sortBy {le : α → α → Bool}
    (htrans : ∀ a b c, le a b = true → le b c = true → le a c = true)
    (htotal : ∀ a b, le a b = true ∨ le b a = true) :
    ∀ l : List α, (sortBy le l).Pairwise (fun a b => le a b = true) := by
  intro l
  induction l with
  | nil => simp [sortBy]
  | cons x t ih => exact pairwise_insertSorted htrans htotal x (sortBy le t) ih

/-- Two sorted lists that are permutations of one another and whose members
the order does not tie apart are equal; this is what makes the dump output
independent of the input stream order once the sort keys are distinct. -/
theorem sorted_unique {le : α → α → Bool} :
    ∀ {l₁ l₂ : List α}, l₁.Perm l₂ →
      l₁.Pairwise (fun a b => le a b = true) →
      l₂.Pairwise (fun a b => le a b = true) →
      (∀ x ∈ l₁, ∀ y ∈ l₁, le x y = true → le y x = true → x = y) →
      l₁ = l₂ := by
  intro l₁
  induction l₁ with
  | nil =>
    intro l₂ p _ _ _
    exact p.nil_eq
  | cons a t ih =>
    intro l₂ p s₁ s₂ hanti
    cases l₂ with
    | nil => exact absurd p.eq_nil (by simp)
    | cons b u =>
      have hab : a = b := by
        by_contra hne
        have hbt : b ∈ t := by
          have : b ∈ a :: t := p.mem_iff.mpr (List.mem_cons_self b u)
          rcases List.mem_cons.mp this with h | h
          · exact absurd h.symm hne
          · exact h
        have hau : a ∈ u := by
          have : a ∈ b :: u := p.mem_iff.mp (List.mem_cons_self a t)
          rcases List.mem_cons.mp this with h | h
          · exact absurd h hne
          · exact h
        have h1 : le a b = true := (List.pairwise_cons.mp s₁).1 b hbt
        have h2 : le b a = true := (List.pairwise_cons.mp s₂).1 a hau
        exact hne (hanti a (List.mem_cons_self a t) b (List.mem_cons_of_mem a hbt) h1 h2)
      subst hab
      have p' : t.Perm u := p.cons_inv
      have ht : t = u :=
        ih p' (List.pairwise_cons.mp s₁).2 (List.pairwise_cons.mp s₂).2
          (fun x hx y hy => hanti x (List.mem_cons_of_mem a hx) y (List.mem_cons_of_mem a hy))
      rw [ht]

/-! Facts about the validation stage. -/

theorem filterLogAux_fst (p : α → Bool) :
    ∀ (i : Nat) (l : List α), (filterLogAux p i l).1 = l.filter p := by
  intro i l
  induction l generalizing i with
  | nil => rfl
  | cons x rest ih =>
    cases h : p x
    · simp [filterLogAux, h, ih (i + 1)]
    · simp [filterLogAux, h, ih (i + 1)]

theorem filterLogAux_len (p : α → Bool) :
    ∀ (i : Nat) (l : List α),
      (filterLogAux p i l).1.length + (filterLogAux p i l).2.length = l.length := by
  intro i l
  induction l generalizing i with
  | nil => rfl
  | cons x rest ih =>
    have hl := ih (i + 1)
    cases h : p x
    · simp only [filterLogAux, h, Bool.false_eq_true, if_false, List.length_cons]
      omega
    · simp only [filterLogAux, h, if_true, List.length_cons]
      omega

theorem filterLogAux_rejects (p : α → Bool) :
    ∀ (i : Nat) (l : List α), ∀ pr ∈ (filterLogAux p i l).2,
      i ≤ pr.1 ∧ l[pr.1 - i]? = some pr.2 ∧ p pr.2 = false := by
  intro i l
  induction l generalizing i with
  | nil => intro pr hpr; simp [filterLogAux] at hpr
  | cons x rest ih =>
    intro pr hpr
    cases h : p x
    · simp only [filterLogAux, h, Bool.false_eq_true, if_false] at hpr
      rcases List.mem_cons.mp hpr with hpr | hpr
      · subst hpr
        exact ⟨Nat.le_refl i, by simp, h⟩
      · rcases ih (i + 1) pr hpr with ⟨h1, h2, h3⟩
        refine ⟨Nat.le_of_succ_le h1, ?_, h3⟩
        have hx : pr.1 - i = (pr.1 - (i + 1)) + 1 := by omega
        rw [hx, List.getElem?_cons_succ]
        exact h2
    · simp only [filterLogAux, h, if_true] at hpr
      rcases ih (i + 1) pr hpr with ⟨h1, h2, h3⟩
      refine ⟨Nat.le_of_succ_le h1, ?_, h3⟩
      have hx : pr.1 - i = (pr.1 - (i + 1)) + 1 := by omega
      rw [hx, List.getElem?_cons_succ]
      exact h2

theorem validate_nodes_eq_filter (valid : String → String → Bool) (nodes : List Node) :
    validate_nodes valid nodes = nodes.filter (nodeValidB valid) :=
  filterLogAux_fst (nodeValidB valid) 0 nodes

theorem validate_relations_eq_filter (valid : String → String → Bool) (rels : List Relation) :
    validate_relations valid rels = rels.filter (relValidB valid) :=
  filterLogAux_fst (relValidB valid) 0 rels

/-! Facts about the insertion-ordered dictionary. -/

theorem buildDict_concat {κ α : Type} [DecidableEq κ] (key : α → κ) (l : List α) (a : α) :
    buildDict key (l ++ [a]) = dictInsert key (buildDict key l) a := by
  unfold buildDict
  rw [List.foldl_append]
  rfl

theorem buildDict_fst_eq_key {κ α : Type} [DecidableEq κ] (key : α → κ) :
    ∀ l : List α, ∀ p ∈ buildDict key l, p.1 = key p.2 := by
  intro l
  induction l using List.reverseRecOn with
  | nil => intro p hp; simp [buildDict] at hp
  | append_singleton l a ih =>
    intro p hp
    rw [buildDict_concat] at hp
    unfold dictInsert at hp
    by_cases h : (buildDict key l).any (fun q => decide (q.1 = key a)) = true
    · rw [if_pos h] at hp
      rcases List.mem_map.mp hp with ⟨q, hq, hupd⟩
      by_cases hq1 : q.1 = key a
      · rw [if_pos hq1] at hupd
        rw [← hupd]
        exact hq1
      · rw [if_neg hq1] at hupd
        rw [← hupd]
        exact ih q hq
    · rw [if_neg h] at hp
      rcases List.mem_append.mp hp with hp | hp
      · exact ih p hp
      · rcases List.mem_singleton.mp hp with rfl
        rfl

theorem buildDict_mem_fst {κ α : Type} [DecidableEq κ] (key : α → κ) :
    ∀ (l : List α) (k : κ),
      k ∈ (buildDict key l).map Prod.fst ↔ k ∈ l.map key := by
  intro l
  induction l using List.reverseRecOn with
  | nil => intro k; simp [buildDict]
  | append_singleton l a ih =>
    intro k
    rw [buildDict_concat]
    unfold dictInsert
    by_cases h : (buildDict key l).any (fun q => decide (q.1 = key a)) = true
    · rw [if_pos h]
      have hfst :
          ((buildDict key l).map
              (fun q => if q.1 = key a then (q.1, a) else q)).map Prod.fst =
            (buildDict key l).map Prod.fst := by
        rw [List.map_map]
        apply List.map_congr_left
        intro q _
        by_cases hq1 : q.1 = key a <;> simp [hq1]
      rw [hfst, ih k]
      have hka : key a ∈ l.map key := by
        rcases List.any_eq_true.mp h with ⟨q, hq, hq1⟩
        have : key a ∈ (buildDict key l).map Prod.fst :=
          (of_decide_eq_true hq1) ▸ List.mem_map_of_mem Prod.fst hq
        exact (ih (key a)).mp this
      simp only [List.map_append, List.map_cons, List.map_nil, List.mem_append,
        List.mem_singleton]
      constructor
      · exact Or.inl
      · rintro (hk | rfl)
        · exact hk
        · exact hka
    · rw [if_neg h]
      simp only [List.map_append, List.map_cons, List.map_nil, List.mem_append,
        List.mem_singleton, ih k]

theorem buildDict_fst_nodup {κ α : Type} [DecidableEq κ] (key : α → κ) :
    ∀ l : List α, ((buildDict key l).map Prod.fst).Nodup := by
  intro l
  induction l using List.reverseRecOn with
  | nil => simp [buildDict]
  | append_singleton l a ih =>
    rw [buildDict_concat]
    unfold dictInsert
    by_cases h : (buildDict key l).any (fun q => decide (q.1 = key a)) = true
    · rw [if_pos h]
      have hfst :
          ((buildDict key l).map
              (fun q => if q.1 = key a then (q.1, a) else q)).map Prod.fst =
            (buildDict key l).map Prod.fst := by
        rw [List.map_map]
        apply List.map_congr_left
        intro q _
        by_cases hq1 : q.1 = key a <;> simp [hq1]
      rw [hfst]
      exact ih
    · rw [if_neg h]
      rw [List.map_append]
      refine List.Nodup.append ih (by simp) ?_
      intro k hk hk'
      simp only [List.map_cons, List.map_nil, List.mem_singleton] at hk'
      subst hk'
      rcases List.mem_map.mp hk with ⟨q, hq, hq1⟩
      exact (List.any_eq_false.mp (Bool.not_eq_true _ ▸ h) q hq) (by simp [hq1])

theorem buildDict_getLast {κ α : Type} [DecidableEq κ] (key : α → κ) :
    ∀ l : List α, ∀ p ∈ buildDict key l,
      (l.filter (fun y => decide (key y = p.1))).getLast? = some p.2 := by
  intro l
  induction l using List.reverseRecOn with
  | nil => intro p hp; simp [buildDict] at hp
  | append_singleton l a ih =>
    intro p hp
    rw [buildDict_concat] at hp
    unfold dictInsert at hp
    rw [List.filter_append]
    by_cases h : (buildDict key l).any (fun q => decide (q.1 = key a)) = true
    · rw [if_pos h] at hp
      rcases List.mem_map.mp hp with ⟨q, hq, hupd⟩
      by_cases hq1 : q.1 = key a
      · rw [if_pos hq1] at hupd
        have hp1 : p.1 = key a := by rw [← hupd]; exact hq1
        have hp2 : p.2 = a := by rw [← hupd]
        have hfa : List.filter (fun y => decide (key y = p.1)) [a] = [a] := by
          simp [hp1]
        rw [hfa, hp2]
        exact List.getLast?_concat _
      · rw [if_neg hq1] at hupd
        subst hupd
        have hfa : List.filter (fun y => decide (key y = q.1)) [a] = [] := by
          simp
          exact fun heq => hq1 heq.symm
        rw [hfa, List.append_nil]
        exact ih q hq
    · rw [if_neg h] at hp
      rcases List.mem_append.mp hp with hp | hp
      · have hp1 : p.1 ≠ key a := by
          intro heq
          exact (List.any_eq_false.mp (Bool.not_eq_true _ ▸ h) p hp) (by simp [heq])
        have hfa : List.filter (fun y => decide (key y = p.1)) [a] = [] := by
          simp
          exact fun heq => hp1 heq.symm
        rw [hfa, List.append_nil]
        exact ih p hp
      · rcases List.mem_singleton.mp hp with rfl
        have hfa : List.filter (fun y => decide (key y = (key a, a).1)) [a] = [a] := by
          simp
        rw [hfa]
        exact List.getLast?_concat _

/-! Folds over nested loops. -/

theorem foldl_foldl_flatMap {α β γ : Type} (f : β → α → β) (L : γ → List α) :
    ∀ (l : List γ) (init : β),
      l.foldl (fun m g => (L g).foldl f m) init = (l.flatMap L).foldl f init := by
  intro l
  induction l with
  | nil => intro init; rfl
  | cons g t ih =>
    intro init
    simp only [List.foldl_cons, List.flatMap_cons, List.foldl_append]
    exact ih _

theorem get_go_terms_eq_buildDict (c : Client) (gene : String × String) :
    get_go_terms_for_gene c gene true =
      (buildDict Node.grounding
        (c.get_targets gene "associated_with" ++
          (c.get_targets gene "associated_with").flatMap
            (fun g => c.get_successors g.grounding ["isa"]))).map Prod.snd := by
  unfold get_go_terms_for_gene
  simp only [Bool.not_true, Bool.false_eq_true, if_false]
  refine congrArg (List.map Prod.snd) ?_
  have h := foldl_foldl_flatMap (dictInsert Node.grounding)
    (fun g : Node => c.get_successors g.grounding ["isa"])
    (c.get_targets gene "associated_with")
    (List.foldl (dictInsert Node.grounding) [] (c.get_targets gene "associated_with"))
  rw [h]
  unfold buildDict
  rw [List.foldl_append]

theorem get_genes_eq_buildDict (c : Client) (go_term : String × String) :
    get_genes_for_go_term c go_term true =
      (buildDict Node.grounding
        ((go_term :: (get_ontology_child_terms c go_term).map Node.grounding).flatMap
          (fun t => c.get_sources t "associated_with"))).map Prod.snd := by
  unfold get_genes_for_go_term
  simp only [if_pos]
  refine congrArg (List.map Prod.snd) ?_
  have h := foldl_foldl_flatMap (dictInsert Node.grounding)
    (fun t : String × String => c.get_sources t "associated_with")
    (go_term :: (get_ontology_child_terms c go_term).map Node.grounding)
    []
  rw [h]
  rfl

/-! Concrete fixtures used by the claim-level theorems. -/

/-- A validity check accepting every reference, used to run the pipeline on
concrete inputs. -/
def allValid : String → String → Bool := fun _ _ => true

/-- A validity check accepting only the namespace `go`. -/
def goOnlyValid : String → String → Bool := fun ns _ => ns == "go"

/-- A concrete node with identity `("go", "1")`. -/
def cxNodeA : Node := { db_ns := "go", db_id := "1", labels := ["BioEntity"], data := [("p", "x")] }

/-- A second, distinct node with the same identity `("go", "1")`. -/
def cxNodeB : Node := { db_ns := "go", db_id := "1", labels := ["Other"], data := [] }

/-- A concrete node with identity `("go", "2")`. -/
def cxNodeC : Node := { db_ns := "go", db_id := "2", labels := ["BioEntity"], data := [] }

/-- A concrete node with identity `("hgnc", "7")`. -/
def cxNodeBad : Node := { db_ns := "hgnc", db_id := "7", labels := ["BioEntity"], data := [] }

/-- A concrete relation of type `isa` between two identifiers that appear in
no node stream. -/
def cxRel : Relation :=
  { source_ns := "GO", source_id := "1100", target_ns := "MESH", target_id := "D001943",
    rel_type := "isa", data := [] }

/-- A node returned as a direct query result, with identity `("go", "5")`. -/
def cxDirect : Node := { db_ns := "go", db_id := "5", labels := ["direct"], data := [] }

/-- A distinct node sharing the identity `("go", "5")`, returned as an
indirect (one-further-hop) query result. -/
def cxIndirect : Node := { db_ns := "go", db_id := "5", labels := ["indirect"], data := [] }

/-- A concrete graph client on which a direct and an indirect result share
one node identity but differ as nodes. -/
def cxClient : Client :=
  { get_targets := fun _ _ => [cxDirect]
    get_sources := fun _ _ => [cxDirect]
    get_successors := fun _ _ => [cxIndirect]
    get_predecessors := fun _ _ => [cxIndirect] }

/-- C10: the four entries of the 2x2 matrix built by
`_prepare_hypergeometric_test` sum exactly to the universe size `U`, and
the bottom-right cell is `U` minus the size of the union of the two gene
sets (hence negative whenever `U` is smaller than that union). -/
theorem C10_matrix_sum (Q P : Finset String) (U : Int) :
    (prepare_hypergeometric_test Q P U).1.1 + (prepare_hypergeometric_test Q P U).1.2
      + (prepare_hypergeometric_test Q P U).2.1 + (prepare_hypergeometric_test Q P U).2.2 = U
    ∧ (prepare_hypergeometric_test Q P U).2.2 = U - ((Q ∪ P).card : Int) := by
  constructor
  · simp only [prepare_hypergeometric_test]
    have h1 : (Q \ P).card + (Q ∩ P).card = Q.card := Finset.card_sdiff_add_card_inter Q P
    have h2 : (P \ Q).card + (P ∩ Q).card = P.card := Finset.card_sdiff_add_card_inter P Q
    have h3 : (P ∪ Q).card + (P ∩ Q).card = P.card + Q.card :=
      Finset.card_union_add_card_inter P Q
    have h4 : (Q ∩ P).card = (P ∩ Q).card := by rw [Finset.inter_comm]
    omega
  · simp only [prepare_hypergeometric_test]
    rw [Finset.union_comm]

/-- C6: validation returns exactly the subsequence of items passing the
identifier check, in input order; every failing item is recorded as a
rejection carrying its stream index and the item itself; the stream is
never aborted (every input item is either yielded or rejected, so the
lengths add up); and consequently every validated item satisfies the
check. -/
theorem C6_validation_behavior (valid : String → String → Bool)
    (nodes : List Node) (rels : List Relation) :
    validate_nodes valid nodes = nodes.filter (nodeValidB valid)
    ∧ (∀ n ∈ validate_nodes valid nodes, nodeValidB valid n = true)
    ∧ (validate_nodes valid nodes).length + (validate_nodes_rejects valid nodes).length
        = nodes.length
    ∧ (∀ pr ∈ validate_nodes_rejects valid nodes,
        nodes[pr.1]? = some pr.2 ∧ nodeValidB valid pr.2 = false)
    ∧ validate_relations valid rels = rels.filter (relValidB valid)
    ∧ (∀ r ∈ validate_relations valid rels, relValidB valid r = true)
    ∧ (validate_relations valid rels).length + (validate_relations_rejects valid rels).length
        = rels.length
    ∧ (∀ pr ∈ validate_relations_rejects valid rels,
        rels[pr.1]? = some pr.2 ∧ relValidB valid pr.2 = false) := by
  refine ⟨validate_nodes_eq_filter valid nodes, ?_, ?_, ?_,
    validate_relations_eq_filter valid rels, ?_, ?_, ?_⟩
  · intro n hn
    rw [validate_nodes_eq_filter] at hn
    exact List.of_mem_filter hn
  · exact filterLogAux_len (nodeValidB valid) 0 nodes
  · intro pr hpr
    rcases filterLogAux_rejects (nodeValidB valid) 0 nodes pr hpr with ⟨_, h2, h3⟩
    rw [Nat.sub_zero] at h2
    exact ⟨h2, h3⟩
  · intro r hr
    rw [validate_relations_eq_filter] at hr
    exact List.of_mem_filter hr
  · exact filterLogAux_len (relValidB valid) 0 rels
  · intro pr hpr
    rcases filterLogAux_rejects (relValidB valid) 0 rels pr hpr with ⟨_, h2, h3⟩
    rw [Nat.sub_zero] at h2
    exact ⟨h2, h3⟩

/-- C6 witness: on a concrete stream whose second node fails the check,
validation keeps exactly the passing node and logs the rejection
`(1, cxNodeBad)`. -/
theorem C6_validation_witness :
    validate_nodes goOnlyValid [cxNodeA, cxNodeBad] = [cxNodeA]
    ∧ [cxNodeA, cxNodeBad][1]? = some cxNodeBad
    ∧ nodeValidB goOnlyValid cxNodeBad = false := by
  have h := C6_validation_behavior goOnlyValid [cxNodeA, cxNodeBad] []
  refine ⟨h.1.trans (by decide), ?_⟩
  have h2 := h.2.2.2.1 (1, cxNodeBad) (by decide)
  exact h2

/-! Unfolding lemmas for the dump artifacts. -/

theorem dump_node_table_eq (valid : String → String → Bool) (input : List Node)
    (rels : List Relation) :
    (Processor.dump valid input rels).node_table =
      nodeHeader (nodeMetadata (validate_nodes valid (sortNodes input)))
        :: (validate_nodes valid (sortNodes input)).map
            (nodeRow (nodeMetadata (validate_nodes valid (sortNodes input)))) := by
  simp only [Processor.dump, dump_nodes, dump_nodes_to_path]
  rw [if_pos trivial]
  rw [List.take_append_drop]

theorem dump_node_sample_eq (valid : String → String → Bool) (input : List Node)
    (rels : List Relation) :
    (Processor.dump valid input rels).node_sample =
      nodeHeader (nodeMetadata (validate_nodes valid (sortNodes input)))
        :: ((validate_nodes valid (sortNodes input)).map
            (nodeRow (nodeMetadata (validate_nodes valid (sortNodes input))))).take 10 := by
  simp only [Processor.dump, dump_nodes, dump_nodes_to_path]
  rw [if_pos trivial]
  rfl

theorem dump_edge_table_eq (valid : String → String → Bool) (input : List Node)
    (rels : List Relation) :
    (Processor.dump valid input rels).edge_table =
      edgeHeader (relMetadata (sortRels (validate_relations valid rels)))
        :: (sortRels (validate_relations valid rels)).map
            (edgeRow (relMetadata (sortRels (validate_relations valid rels)))) := by
  simp only [Processor.dump, dump_edges]
  rw [List.take_append_drop]

theorem dump_edge_sample_eq (valid : String → String → Bool) (input : List Node)
    (rels : List Relation) :
    (Processor.dump valid input rels).edge_sample =
      edgeHeader (relMetadata (sortRels (validate_relations valid rels)))
        :: ((sortRels (validate_relations valid rels)).map
            (edgeRow (relMetadata (sortRels (validate_relations valid rels))))).take 10 := by
  simp only [Processor.dump, dump_edges]

/-- C7: the node table starts with the header `id:ID`, `:LABEL` followed by
the sorted, duplicate-free union of all property keys appearing across the
validated batch, and every data row consists of the normalized
`namespace:local_id` string, the semicolon-joined label list, and, for each
header key, the node's value for that key or the empty value when the node
lacks it. -/
theorem C7_node_table_layout (valid : String → String → Bool)
    (input : List Node) (rels : List Relation) :
    (nodeMetadata (validate_nodes valid (sortNodes input))).Pairwise
        (fun a b => strLeB a b = true)
    ∧ (nodeMetadata (validate_nodes valid (sortNodes input))).Nodup
    ∧ (∀ k, k ∈ nodeMetadata (validate_nodes valid (sortNodes input)) ↔
        ∃ n ∈ validate_nodes valid (sortNodes input), k ∈ n.data.map Prod.fst)
    ∧ (Processor.dump valid input rels).node_table =
        ("id:ID" :: ":LABEL" :: nodeMetadata (validate_nodes valid (sortNodes input)))
          :: (validate_nodes valid (sortNodes input)).map
            (fun n => norm_id n.db_ns n.db_id
              :: String.intercalate ";" n.labels
              :: (nodeMetadata (validate_nodes valid (sortNodes input))).map
                  (fun k => dataGetD n.data k "")) := by
  refine ⟨?_, ?_, ?_, ?_⟩
  · exact @pairwise_sortBy String strLeB (fun a b c h1 h2 => strLeB_trans h1 h2)
      strLeB_total _
  · unfold nodeMetadata
    exact ((perm_sortBy strLeB _).nodup_iff).mpr (List.nodup_dedup _)
  · intro k
    unfold nodeMetadata
    rw [(perm_sortBy strLeB _).mem_iff, List.mem_dedup, List.mem_flatMap]
  · exact dump_node_table_eq valid input rels

/-- C8: the data rows of the node table are the validated nodes in
nondecreasing order of the key `(namespace, local_id)`, and the data rows of
the edge table are the validated relations in nondecreasing order of the key
`(source_ns, source_id, target_ns, target_id)`, both compared as Python
compares string tuples. -/
theorem C8_sorted_output (valid : String → String → Bool)
    (input : List Node) (rels : List Relation) :
    (Processor.dump valid input rels).node_table.drop 1 =
        (validate_nodes valid (sortNodes input)).map
          (nodeRow (nodeMetadata (validate_nodes valid (sortNodes input))))
    ∧ (validate_nodes valid (sortNodes input)).Pairwise
        (fun a b => strListLe (nodeKeyL a) (nodeKeyL b) = true)
    ∧ (Processor.dump valid input rels).edge_table.drop 1 =
        (sortRels (validate_relations valid rels)).map
          (edgeRow (relMetadata (sortRels (validate_relations valid rels))))
    ∧ (sortRels (validate_relations valid rels)).Pairwise
        (fun a b => strListLe (relKeyL a) (relKeyL b) = true) := by
  refine ⟨?_, ?_, ?_, ?_⟩
  · rw [dump_node_table_eq valid input rels, List.drop_one, List.tail_cons]
  · rw [validate_nodes_eq_filter]
    exact List.Pairwise.sublist (List.filter_sublist _)
      (@pairwise_sortBy Node nodeLe (fun a b c h1 h2 => nodeLe_trans h1 h2)
        nodeLe_total input)
  · rw [dump_edge_table_eq valid input rels, List.drop_one, List.tail_cons]
  · exact @pairwise_sortBy Relation relLe (fun a b c h1 h2 => relLe_trans h1 h2)
      relLe_total _

/-- C9: each sample file consists of the same header row as its full table
followed by exactly the first `min 10 n` data rows of that table, and the
full table itself carries all `n` data rows (one per validated item), so
writing the sample neither duplicates nor omits rows of the full table. -/
theorem C9_sample_files (valid : String → String → Bool)
    (input : List Node) (rels : List Relation) :
    (Processor.dump valid input rels).node_sample.take 1 =
        (Processor.dump valid input rels).node_table.take 1
    ∧ (Processor.dump valid input rels).node_sample.drop 1 =
        ((Processor.dump valid input rels).node_table.drop 1).take 10
    ∧ ((Processor.dump valid input rels).node_sample.drop 1).length =
        min 10 ((Processor.dump valid input rels).node_table.drop 1).length
    ∧ (Processor.dump valid input rels).node_table.drop 1 =
        (validate_nodes valid (sortNodes input)).map
          (nodeRow (nodeMetadata (validate_nodes valid (sortNodes input))))
    ∧ (Processor.dump valid input rels).edge_sample.take 1 =
        (Processor.dump valid input rels).edge_table.take 1
    ∧ (Processor.dump valid input rels).edge_sample.drop 1 =
        ((Processor.dump valid input rels).edge_table.drop 1).take 10
    ∧ ((Processor.dump valid input rels).edge_sample.drop 1).length =
        min 10 ((Processor.dump valid input rels).edge_table.drop 1).length
    ∧ (Processor.dump valid input rels).edge_table.drop 1 =
        (sortRels (validate_relations valid rels)).map
          (edgeRow (relMetadata (sortRels (validate_relations valid rels)))) := by
  rw [dump_node_table_eq valid input rels, dump_node_sample_eq valid input rels,
    dump_edge_table_eq valid input rels, dump_edge_sample_eq valid input rels]
  refine ⟨rfl, rfl, ?_, rfl, rfl, rfl, ?_, rfl⟩
  · simp [List.length_take]
  · simp [List.length_take]

/-- C1 counterexample: on a stream containing the node with identity
`("go", "1")` twice, the node table contains two rows for that identity,
not exactly one — `_dump_nodes` only sorts, it never collapses
duplicates. -/
theorem C1_counterexample :
    ¬ ((Processor.dump allValid [cxNodeA, cxNodeA] []).node_table.countP
        (fun r => r.head? == some (norm_id "go" "1")) = 1) := by decide

/-- C1 (amended): duplicates are not collapsed.  The node table carries one
data row per validated node, in sorted order, and an identity occurring `k`
times among the validated input nodes contributes exactly `k` rows. -/
theorem C1_rows_per_identity (valid : String → String → Bool)
    (input : List Node) (rels : List Relation) (ns id : String) :
    (Processor.dump valid input rels).node_table.drop 1 =
      (validate_nodes valid (sortNodes input)).map
        (nodeRow (nodeMetadata (validate_nodes valid (sortNodes input))))
    ∧ (validate_nodes valid (sortNodes input)).countP
        (fun n => n.db_ns == ns && n.db_id == id) =
      input.countP (fun n => (n.db_ns == ns && n.db_id == id) && nodeValidB valid n) := by
  constructor
  · rw [dump_node_table_eq valid input rels, List.drop_one, List.tail_cons]
  · rw [validate_nodes_eq_filter, List.countP_filter]
    exact (perm_sortBy nodeLe input).countP_eq _

/-- C2 counterexample: two input streams holding the same two (distinct)
nodes, which share the sort key `("go", "1")`, in opposite orders; the
stable sort preserves their relative order, so the two runs produce
different node tables. -/
theorem C2_counterexample :
    ¬ (Processor.dump allValid [cxNodeA, cxNodeB] [] =
        Processor.dump allValid [cxNodeB, cxNodeA] []) := by decide

/-- C2 (amended): the dump is deterministic under input reordering provided
no two distinct items of a stream share a sort key: for node streams that
are permutations of one another with pairwise distinct `(db_ns, db_id)`
keys and relation streams that are permutations of one another with
pairwise distinct endpoint-tuple keys, the two runs produce identical
artifacts. -/
theorem C2_determinism_of_distinct_keys (valid : String → String → Bool)
    {nodes₁ nodes₂ : List Node} {rels₁ rels₂ : List Relation}
    (hn : nodes₁.Perm nodes₂) (hr : rels₁.Perm rels₂)
    (hnk : ∀ x ∈ nodes₁, ∀ y ∈ nodes₁, nodeKeyL x = nodeKeyL y → x = y)
    (hrk : ∀ x ∈ rels₁, ∀ y ∈ rels₁, relKeyL x = relKeyL y → x = y) :
    Processor.dump valid nodes₁ rels₁ = Processor.dump valid nodes₂ rels₂ := by
  have hsn : sortNodes nodes₁ = sortNodes nodes₂ := by
    refine sorted_unique
      ((perm_sortBy nodeLe nodes₁).trans (hn.trans (perm_sortBy nodeLe nodes₂).symm))
      (@pairwise_sortBy Node nodeLe (fun a b c h1 h2 => nodeLe_trans h1 h2)
        nodeLe_total nodes₁)
      (@pairwise_sortBy Node nodeLe (fun a b c h1 h2 => nodeLe_trans h1 h2)
        nodeLe_total nodes₂) ?_
    intro x hx y hy h1 h2
    exact hnk x ((perm_sortBy nodeLe nodes₁).mem_iff.mp hx)
      y ((perm_sortBy nodeLe nodes₁).mem_iff.mp hy)
      (strListLe_antisymm _ _ h1 h2)
  have hvr : (validate_relations valid rels₁).Perm (validate_relations valid rels₂) := by
    rw [validate_relations_eq_filter, validate_relations_eq_filter]
    exact hr.filter _
  have hsr : sortRels (validate_relations valid rels₁) =
      sortRels (validate_relations valid rels₂) := by
    refine sorted_unique
      ((perm_sortBy relLe _).trans (hvr.trans (perm_sortBy relLe _).symm))
      (@pairwise_sortBy Relation relLe (fun a b c h1 h2 => relLe_trans h1 h2)
        relLe_total _)
      (@pairwise_sortBy Relation relLe (fun a b c h1 h2 => relLe_trans h1 h2)
        relLe_total _) ?_
    intro x hx y hy h1 h2
    have hx' : x ∈ rels₁ := by
      have := (perm_sortBy relLe _).mem_iff.mp hx
      rw [validate_relations_eq_filter] at this
      exact List.mem_of_mem_filter this
    have hy' : y ∈ rels₁ := by
      have := (perm_sortBy relLe _).mem_iff.mp hy
      rw [validate_relations_eq_filter] at this
      exact List.mem_of_mem_filter this
    exact hrk x hx' y hy' (strListLe_antisymm _ _ h1 h2)
  simp only [Processor.dump, dump_nodes, dump_edges]
  rw [hsn, hsr]

/-- C2 witness: a concrete pair of reordered streams with distinct sort
keys on which the two dump runs coincide. -/
theorem C2_determinism_witness :
    Processor.dump allValid [cxNodeA, cxNodeC] [] =
      Processor.dump allValid [cxNodeC, cxNodeA] [] :=
  C2_determinism_of_distinct_keys allValid (by decide) (by decide) (by decide) (by decide)

/-- C3 (code bug): for a single validated `isa` relation from `GO:1100` to
`MESH:D001943`, the summary file contains — after the header
`source_ns, rel, target_ns, count` — the row `i, s, a, 1`: the counter is
keyed by `edge_row[2]` (the relation type alone, not the
source-namespace/type/target-namespace triple its own type annotation and
header announce), and `print(*row, count)` unpacks that string into
individual characters. -/
theorem C3_summary_divergence :
    (Processor.dump allValid [] [cxRel]).edge_summary =
      [["source_ns", "rel", "target_ns", "count"], ["i", "s", "a", "1"]] := by decide

/-- Key-collapse behavior of a dictionary built by inserting a list of
values keyed by `key`, in order: the keys of the values are duplicate-free,
a key occurs among the values exactly when it occurs in the input, and the
value retained for each key is the last input element carrying it. -/
theorem collapse_props {κ α : Type} [DecidableEq κ] (key : α → κ) (L : List α) :
    (((buildDict key L).map Prod.snd).map key).Nodup
    ∧ (∀ k, k ∈ ((buildDict key L).map Prod.snd).map key ↔ k ∈ L.map key)
    ∧ ∀ x ∈ (buildDict key L).map Prod.snd,
        (L.filter (fun y => decide (key y = key x))).getLast? = some x := by
  have hmap : ((buildDict key L).map Prod.snd).map key = (buildDict key L).map Prod.fst := by
    rw [List.map_map]
    exact List.map_congr_left (fun p hp => (buildDict_fst_eq_key key L p hp).symm)
  refine ⟨?_, ?_, ?_⟩
  · rw [hmap]
    exact buildDict_fst_nodup key L
  · intro k
    rw [hmap]
    exact buildDict_mem_fst key L k
  · intro x hx
    rcases List.mem_map.mp hx with ⟨p, hp, hpx⟩
    have h1 := buildDict_getLast key L p hp
    rw [buildDict_fst_eq_key key L p hp, hpx] at h1
    exact h1

/-- C4 counterexample: a client on which the gene's only direct GO term and
its only `isa`-successor are two different nodes sharing the identity
`("go", "5")`.  The claim says the direct node is kept and the indirect one
skipped; the code keeps the indirect node and drops the direct one. -/
theorem C4_counterexample :
    cxDirect ∉ get_go_terms_for_gene cxClient ("hgnc", "1") true
    ∧ cxIndirect ∈ get_go_terms_for_gene cxClient ("hgnc", "1") true
    ∧ cxIndirect.grounding = cxDirect.grounding
    ∧ cxIndirect ≠ cxDirect := by decide

/-- C4 (amended): the 2-level closures are key-deduplicated unions of the
direct one-hop results with one further hop — the result holds exactly one
node per identity occurring among direct-plus-indirect results — but when a
direct and an indirect result share an identity the retained node is the
last one written into the dictionary (the indirect one), not the direct
one: each returned node is the last element with its identity in the
concatenated direct-then-indirect result stream. -/
theorem C4_closure_last_write_wins (c : Client) (gene go_term : String × String) :
    (((get_go_terms_for_gene c gene true).map Node.grounding).Nodup
      ∧ (∀ k, k ∈ (get_go_terms_for_gene c gene true).map Node.grounding ↔
          k ∈ (c.get_targets gene "associated_with" ++
            (c.get_targets gene "associated_with").flatMap
              (fun g => c.get_successors g.grounding ["isa"])).map Node.grounding)
      ∧ ∀ x ∈ get_go_terms_for_gene c gene true,
          ((c.get_targets gene "associated_with" ++
            (c.get_targets gene "associated_with").flatMap
              (fun g => c.get_successors g.grounding ["isa"])).filter
              (fun y => decide (Node.grounding y = Node.grounding x))).getLast? = some x)
    ∧ (((get_genes_for_go_term c go_term true).map Node.grounding).Nodup
      ∧ (∀ k, k ∈ (get_genes_for_go_term c go_term true).map Node.grounding ↔
          k ∈ ((go_term :: (get_ontology_child_terms c go_term).map Node.grounding).flatMap
            (fun t => c.get_sources t "associated_with")).map Node.grounding)
      ∧ ∀ x ∈ get_genes_for_go_term c go_term true,
          (((go_term :: (get_ontology_child_terms c go_term).map Node.grounding).flatMap
            (fun t => c.get_sources t "associated_with")).filter
            (fun y => decide (Node.grounding y = Node.grounding x))).getLast? = some x) := by
  constructor
  · rw [get_go_terms_eq_buildDict]
    exact collapse_props Node.grounding _
  · rw [get_genes_eq_buildDict]
    exact collapse_props Node.grounding _

/-- C4 witness: on the concrete client, the closure's identities are
duplicate-free and the node retained for the shared identity is the last
(indirect) one of the direct-then-indirect stream. -/
theorem C4_closure_witness :
    ((get_go_terms_for_gene cxClient ("hgnc", "1") true).map Node.grounding).Nodup
    ∧ ((cxClient.get_targets ("hgnc", "1") "associated_with" ++
        (cxClient.get_targets ("hgnc", "1") "associated_with").flatMap
          (fun g => cxClient.get_successors g.grounding ["isa"])).filter
        (fun y => decide (Node.grounding y = Node.grounding cxIndirect))).getLast? =
      some cxIndirect := by
  have h := C4_closure_last_write_wins cxClient ("hgnc", "1") ("go", "9")
  exact ⟨h.1.1, h.1.2.2 cxIndirect (by decide)⟩

/-- C5 counterexample: a run whose node stream is empty and whose relation
stream holds one validated relation.  The relation's normalized start id
appears in the edge table while the node table has no row with that id, and
nothing is dropped or counted — the relation is silently written. -/
theorem C5_counterexample :
    norm_id "GO" "1100" ∈
        ((Processor.dump allValid [] [cxRel]).edge_table.drop 1).map (fun r => r.getD 0 "")
    ∧ norm_id "GO" "1100" ∉
        ((Processor.dump allValid [] [cxRel]).node_table.drop 1).map (fun r => r.getD 0 "") := by
  decide

/-- C5 (amended): the dump performs no referential check at all: the edge
table is a function of the relation stream alone (identical for any two
node streams), and it contains exactly one data row per validated relation
— the row built from that relation's own endpoints — regardless of whether
those endpoints appear in the node stream. -/
theorem C5_no_referential_check (valid : String → String → Bool)
    (nodes nodes' : List Node) (rels : List Relation) :
    (Processor.dump valid nodes rels).edge_table =
        (Processor.dump valid nodes' rels).edge_table
    ∧ ((Processor.dump valid nodes rels).edge_table.drop 1).length =
        (validate_relations valid rels).length
    ∧ (Processor.dump valid nodes rels).edge_table.drop 1 =
        (sortRels (validate_relations valid rels)).map
          (edgeRow (relMetadata (sortRels (validate_relations valid rels)))) := by
  refine ⟨rfl, ?_, ?_⟩
  · rw [dump_edge_table_eq, List.drop_one, List.tail_cons, List.length_map]
    exact (perm_sortBy relLe _).length_eq
  · rw [dump_edge_table_eq, List.drop_one, List.tail_cons]
